import Mathlib

/-!
Shallow embedding of the `TreeIndex` B+ tree front end (`src/treeindex.rs`)
and of the `Arc` reference-counted handle (`src/ebr/arc.rs`) of the
scalable-concurrent-containers repository.  The node/leaf layer
(`node.rs`, `leafnode.rs`, `leaf.rs`) and the epoch-based reclaimer are
declared by the snapshot but their sources are not part of it; the
definitions standing in for them are modelled from the specification and
say so in their doc comments.

The sequential model abstracts a non-null root, through the node layer, by
the ordered list of leaves reachable from it; concurrency-only signals
(`Retry`, the in-flight split staging) are modelled where a claim is about
them, as oracle-driven transcriptions of the retry loops of
`TreeIndex::read` and `TreeIndex::remove`.
-/

namespace Scc

/-- A leaf's payload: the committed entries of one ordered leaf, in slot order. -/
abbrev Leaf (K V : Type) := List (K × V)

/-- Strict order of entries by key. -/
abbrev keyLt {K V : Type} [LinearOrder K] (a b : K × V) : Prop := a.1 < b.1

/-- Model of `leaf::LeafScanner`: a cursor into one leaf.  `current` is the
entry the scanner points at (`none` before the first advance), `rest` the
committed entries still ahead of it in this leaf, and `tail` the chain of
sibling leaves reachable through the forward links. -/
structure LeafScanner (K V : Type) where
  current : Option (K × V)
  rest : List (K × V)
  tail : List (Leaf K V)
deriving DecidableEq

variable {K V : Type} [LinearOrder K]

/-- The skip test of `Scanner::next`: after a jump an entry is yielded only
when `min_allowed_key` is absent or strictly less than the entry's key. -/
def allowed (mak : Option K) (k : K) : Bool :=
  match mak with
  | none => true
  | some m => decide (m < k)

/-- The inner loop of `Scanner::next` after a jump: advance through the new
leaf's entries until one passes the `min_allowed_key` test. -/
def findEntry (mak : Option K) : List (K × V) → Option ((K × V) × List (K × V))
  | [] => none
  | e :: rs => if allowed mak e.1 then some (e, rs) else findEntry mak rs

/-- The outer loop of `Scanner::next` once the current leaf is exhausted:
follow the sibling links (`jump`) leaf by leaf, looking for an admissible
entry. -/
def jumpLoop (mak : Option K) : List (Leaf K V) → Option ((K × V) × LeafScanner K V)
  | [] => none
  | l :: ls =>
    match findEntry mak l with
    | some (e, rs) => some (e, ⟨some e, rs, ls⟩)
    | none => jumpLoop mak ls

/-- One advance of the leaf cursor as performed by `Scanner::next`: yield the
next committed entry of the current leaf, or jump along the sibling links
with the recorded last key as `min_allowed_key`. -/
def lsNext (s : LeafScanner K V) : Option ((K × V) × LeafScanner K V) :=
  match s.rest with
  | e :: rs => some (e, ⟨some e, rs, s.tail⟩)
  | [] => jumpLoop (s.current.map Prod.fst) s.tail

/-- Number of entries still reachable ahead of the cursor; each successful
advance consumes at least one. -/
def LeafScanner.weight (s : LeafScanner K V) : Nat :=
  s.rest.length + (s.tail.map List.length).sum

theorem findEntry_shorter {mak : Option K} {l : List (K × V)} {e : K × V}
    {rs : List (K × V)} (h : findEntry mak l = some (e, rs)) :
    rs.length < l.length := by
  induction l with
  | nil => simp [findEntry] at h
  | cons x xs ih =>
    rw [findEntry] at h
    by_cases hx : allowed mak x.1 = true
    · rw [if_pos hx] at h
      cases h
      simp
    · rw [if_neg hx] at h
      exact Nat.lt_succ_of_lt (ih h)

theorem jumpLoop_weight {mak : Option K} {ls : List (Leaf K V)} {e : K × V}
    {s' : LeafScanner K V} (h : jumpLoop mak ls = some (e, s')) :
    s'.weight < (ls.map List.length).sum := by
  induction ls with
  | nil => simp [jumpLoop] at h
  | cons l t ih =>
    rw [jumpLoop] at h
    cases hfe : findEntry mak l with
    | some p =>
      rw [hfe] at h
      cases h
      have := findEntry_shorter hfe
      simp only [LeafScanner.weight, List.map_cons, List.sum_cons]
      omega
    | none =>
      rw [hfe] at h
      have := ih h
      simp only [List.map_cons, List.sum_cons]
      omega

theorem lsNext_weight {s : LeafScanner K V} {e : K × V} {s' : LeafScanner K V}
    (h : lsNext s = some (e, s')) : s'.weight < s.weight := by
  obtain ⟨c, rest, tail⟩ := s
  cases rest with
  | cons x rs =>
    simp only [lsNext] at h
    cases h
    simp [LeafScanner.weight]
  | nil =>
    simp only [lsNext] at h
    have := jumpLoop_weight h
    simpa [LeafScanner.weight] using this

theorem lsNext_eq_none_of_weight_zero {s : LeafScanner K V} (h : s.weight = 0) :
    lsNext s = none := by
  cases hn : lsNext s with
  | none => rfl
  | some p =>
    obtain ⟨e, s'⟩ := p
    have := lsNext_weight hn
    omega

/-- Fuel-indexed unfolding of the scan loop; the cursor's weight is always
enough fuel because every yield consumes at least one reachable entry. -/
def scanFuel : Nat → LeafScanner K V → List (K × V)
  | 0, _ => []
  | fuel + 1, s =>
    match lsNext s with
    | none => []
    | some (e, s') => e :: scanFuel fuel s'

/-- The full sequence of entries yielded by repeatedly advancing the cursor,
i.e. by successive `Scanner::next` calls run to exhaustion. -/
def scanFrom (s : LeafScanner K V) : List (K × V) := scanFuel s.weight s

theorem scanFuel_mono {n m : Nat} {s : LeafScanner K V} (hn : s.weight ≤ n)
    (hm : s.weight ≤ m) : scanFuel n s = scanFuel m s := by
  induction n generalizing s m with
  | zero =>
    have h0 := lsNext_eq_none_of_weight_zero (Nat.le_zero.mp hn)
    cases m with
    | zero => rfl
    | succ m' => simp [scanFuel, h0]
  | succ n' ih =>
    cases hx : lsNext s with
    | none =>
      cases m with
      | zero => simp [scanFuel, hx]
      | succ m' => simp [scanFuel, hx]
    | some p =>
      obtain ⟨e, s'⟩ := p
      have hw := lsNext_weight hx
      cases m with
      | zero => omega
      | succ m' =>
        simp only [scanFuel, hx]
        rw [ih (m := m') (s := s') (by omega) (by omega)]

/-- One-step unfolding of `scanFrom`. -/
theorem scanFrom_step (s : LeafScanner K V) :
    scanFrom s = match lsNext s with
      | none => []
      | some (e, s') => e :: scanFrom s' := by
  cases hx : lsNext s with
  | none =>
    cases hw : s.weight with
    | zero => simp [scanFrom, hw, scanFuel]
    | succ n => simp [scanFrom, hw, scanFuel, hx]
  | some p =>
    obtain ⟨e, s'⟩ := p
    have hw := lsNext_weight hx
    unfold scanFrom
    cases hwv : s.weight with
    | zero => omega
    | succ n =>
      simp only [scanFuel, hx]
      rw [scanFuel_mono (n := n) (m := s'.weight) (by omega) (by omega)]

/-- Model of `TreeIndex`: the atomic root pointer.  `none` is the null root;
a non-null root is abstracted by the ordered list of leaves reachable from
it, each leaf carrying its committed entries. -/
structure TreeIndex (K V : Type) where
  root : Option (List (Leaf K V))
deriving DecidableEq

/-- `TreeIndex::new`: a null root. -/
def TreeIndex.new : TreeIndex K V := ⟨none⟩

/-- All live entries of the tree, in leaf order. -/
def TreeIndex.entries (t : TreeIndex K V) : List (K × V) :=
  (t.root.getD []).flatten

/-- Modelled from the spec: `Node::min` (source not in this snapshot)
descends leftmost and returns a cursor positioned before the first entry of
the minimum leaf. -/
def nodeMin : List (Leaf K V) → LeafScanner K V
  | [] => ⟨none, [], []⟩
  | l :: ls => ⟨none, l, ls⟩

/-- Modelled from the spec: `Node::max_less` (source not in this snapshot)
positions the cursor before the first entry of the greatest leaf whose
minimum key is not greater than the given key, staying at the first leaf
when there is no such leaf. -/
def maxLess (k : K) : List (Leaf K V) → LeafScanner K V
  | [] => ⟨none, [], []⟩
  | [l] => ⟨none, l, []⟩
  | l :: l2 :: ls =>
    match l2.head? with
    | some e2 => if e2.1 ≤ k then maxLess k (l2 :: ls) else ⟨none, l, l2 :: ls⟩
    | none => ⟨none, l, l2 :: ls⟩

/-- Model of `Scanner`: the tree reference and the optional leaf cursor; the
epoch guard held for the scanner's lifetime has no functional content in the
sequential model. -/
structure Scanner (K V : Type) where
  tree : TreeIndex K V
  leafScanner : Option (LeafScanner K V)
deriving DecidableEq

/-- `Scanner::new`: created with no leaf cursor. -/
def Scanner.new (t : TreeIndex K V) : Scanner K V := ⟨t, none⟩

/-- `Scanner::get`: the entry currently pointed at; `none` while no leaf
cursor exists. -/
def Scanner.get (s : Scanner K V) : Option (K × V) :=
  match s.leafScanner with
  | some ls => ls.current
  | none => none

/-- `Scanner::next` (`Iterator::next`): on the first call position at the
minimum leaf, then advance the cursor, jumping across sibling leaves with
the `min_allowed_key` skip.  Returns the yielded entry and the scanner
state after the call. -/
def Scanner.next (s : Scanner K V) : Option (K × V) × Scanner K V :=
  match s.leafScanner with
  | none =>
    match s.tree.root with
    | none => (none, s)
    | some leaves =>
      match lsNext (nodeMin leaves) with
      | some (e, ls) => (some e, ⟨s.tree, some ls⟩)
      | none => (none, ⟨s.tree, none⟩)
  | some ls =>
    match lsNext ls with
    | some (e, ls2) => (some e, ⟨s.tree, some ls2⟩)
    | none => (none, ⟨s.tree, none⟩)

/-- The full scan of the tree: the entries yielded by an `iter()` scanner run
to exhaustion. -/
def TreeIndex.scanList (t : TreeIndex K V) : List (K × V) :=
  match t.root with
  | none => []
  | some leaves => scanFrom (nodeMin leaves)

/-- `TreeIndex::len`: the count of a full scan (`self.iter().count()`). -/
def TreeIndex.len (t : TreeIndex K V) : Nat := t.scanList.length

/-- `TreeIndex::clear`: `Node::remove_root` swings the root to null and
retires the whole subtree. -/
def TreeIndex.clear (_t : TreeIndex K V) : TreeIndex K V := ⟨none⟩

/-- Modelled from the spec: `Node::search` (source not in this snapshot)
returns the value of the live entry with an equal key, if any. -/
def nodeSearch (k : K) (leaves : List (Leaf K V)) : Option V :=
  (leaves.flatten.find? (fun e => decide (e.1 = k))).map Prod.snd

/-- `TreeIndex::read`: a null root reads as absent; otherwise the search
result is fed to the closure under the pin. -/
def TreeIndex.read {U : Type} (t : TreeIndex K V) (k : K) (f : K → V → U) :
    Option U :=
  match t.root with
  | none => none
  | some leaves => (nodeSearch k leaves).map (f k)

/-- Modelled from the spec: a leaf keeps its committed entries sorted, and an
insert places the new entry at its sorted position. -/
def leafInsert (k : K) (v : V) : Leaf K V → Leaf K V
  | [] => [(k, v)]
  | e :: rs => if k < e.1 then (k, v) :: e :: rs else e :: leafInsert k v rs

/-- Modelled from the spec: a leaf holds at most `F` entries; a leaf that
overflows splits into two halves (the quiescent end state of the two-phase
split). -/
def splitIfFull (F : Nat) (l : Leaf K V) : List (Leaf K V) :=
  if l.length ≤ F then [l] else [l.take (l.length / 2), l.drop (l.length / 2)]

/-- Modelled from the spec: routing an insert descends to the greatest child
whose minimum key is not greater than the new key. -/
def insertRouted (F : Nat) (k : K) (v : V) : List (Leaf K V) → List (Leaf K V)
  | [] => [[(k, v)]]
  | [l] => splitIfFull F (leafInsert k v l)
  | l :: l2 :: ls =>
    match l2.head? with
    | some e2 =>
      if e2.1 ≤ k then l :: insertRouted F k v (l2 :: ls)
      else splitIfFull F (leafInsert k v l) ++ l2 :: ls
    | none => splitIfFull F (leafInsert k v l) ++ l2 :: ls

/-- Modelled from the spec: `Node::insert` (source not in this snapshot)
returns the duplicated entry when a live entry with an equal key exists, and
otherwise places the entry, splitting overflowing leaves; `Full` and `Retry`
are resolved inside the sequential model. -/
def nodeInsert (F : Nat) (k : K) (v : V) (leaves : List (Leaf K V)) :
    Except (K × V) (List (Leaf K V)) :=
  if leaves.flatten.any (fun e => decide (e.1 = k)) then .error (k, v)
  else .ok (insertRouted F k v leaves)

/-- `TreeIndex::insert`: install a fresh empty root when null, recurse, and
translate `Duplicated(entry)` to `Err(entry)`.  Returns the result together
with the tree after the call. -/
def TreeIndex.insert (F : Nat) (t : TreeIndex K V) (k : K) (v : V) :
    Except (K × V) Unit × TreeIndex K V :=
  match nodeInsert F k v (t.root.getD []) with
  | .error e => (.error e, t)
  | .ok ls => (.ok (), ⟨some ls⟩)

/-- Modelled from the spec: `Leaf::remove` (source not in this snapshot)
retires the live entry with an equal key; functionally the entry disappears
and the retired slot is never re-occupied. -/
def leafRemove (k : K) : Leaf K V → Bool × Leaf K V
  | [] => (false, [])
  | e :: rs =>
    if e.1 = k then (true, rs)
    else
      let r := leafRemove k rs
      (r.1, e :: r.2)

/-- Modelled from the spec: `Node::remove` (source not in this snapshot)
retires the entry in the leaf the key routes to; a leaf that becomes empty
coalesces away. -/
def nodeRemove (k : K) : List (Leaf K V) → Bool × List (Leaf K V)
  | [] => (false, [])
  | l :: ls =>
    let r := leafRemove k l
    if r.1 then (true, if r.2.isEmpty then ls else r.2 :: ls)
    else
      let r' := nodeRemove k ls
      (r'.1, l :: r'.2)

/-- `TreeIndex::remove`: a null root removes nothing; a root node that
emptied is retired by `Node::update_root`.  Returns whether a live entry was
retired together with the tree after the call. -/
def TreeIndex.remove (t : TreeIndex K V) (k : K) : Bool × TreeIndex K V :=
  match t.root with
  | none => (false, t)
  | some leaves =>
    let r := nodeRemove k leaves
    (r.1, ⟨if r.2.isEmpty then none else some r.2⟩)

/-- Fuel-indexed unfolding of the trailing loop of `Scanner::from`. -/
def fromFuel (k : K) : Nat → LeafScanner K V → Option (LeafScanner K V)
  | 0, _ => none
  | fuel + 1, s =>
    match lsNext s with
    | none => none
    | some (e, s') => if k ≤ e.1 then some s' else fromFuel k fuel s'

/-- The trailing loop of `Scanner::from`: advance with `next()` until an
entry with key not less than the bound is yielded; `none` when the scan is
exhausted first. -/
def fromLoop (k : K) (s : LeafScanner K V) : Option (LeafScanner K V) :=
  fromFuel k s.weight s

theorem fromFuel_mono {k : K} {n m : Nat} {s : LeafScanner K V}
    (hn : s.weight ≤ n) (hm : s.weight ≤ m) : fromFuel k n s = fromFuel k m s := by
  induction n generalizing s m with
  | zero =>
    have h0 := lsNext_eq_none_of_weight_zero (Nat.le_zero.mp hn)
    cases m with
    | zero => rfl
    | succ m' => simp [fromFuel, h0]
  | succ n' ih =>
    cases hx : lsNext s with
    | none =>
      cases m with
      | zero => simp [fromFuel, hx]
      | succ m' => simp [fromFuel, hx]
    | some p =>
      obtain ⟨e, s'⟩ := p
      have hw := lsNext_weight hx
      cases m with
      | zero => omega
      | succ m' =>
        simp only [fromFuel, hx]
        rw [ih (m := m') (s := s') (by omega) (by omega)]

/-- One-step unfolding of `fromLoop`. -/
theorem fromLoop_step (k : K) (s : LeafScanner K V) :
    fromLoop k s = match lsNext s with
      | none => none
      | some (e, s') => if k ≤ e.1 then some s' else fromLoop k s' := by
  cases hx : lsNext s with
  | none =>
    cases hw : s.weight with
    | zero => simp [fromLoop, hw, fromFuel]
    | succ n => simp [fromLoop, hw, fromFuel, hx]
  | some p =>
    obtain ⟨e, s'⟩ := p
    have hw := lsNext_weight hx
    unfold fromLoop
    cases hwv : s.weight with
    | zero => omega
    | succ n =>
      simp only [fromFuel, hx]
      rcases le_or_lt k e.1 with hk | hk
      · simp [hk]
      · rw [if_neg (not_le.mpr hk), if_neg (not_le.mpr hk),
          fromFuel_mono (n := n) (m := s'.weight) (by omega) (by omega)]

/-- `TreeIndex::from` / `Scanner::from`: position with `max_less`, then scan
forward to the first entry whose key is not below the bound. -/
def TreeIndex.fromKey (t : TreeIndex K V) (k : K) : Option (Scanner K V) :=
  match t.root with
  | none => none
  | some leaves => (fromLoop k (maxLess k leaves)).map (fun ls => ⟨t, some ls⟩)

/-- Outcome of one iteration of the retry loop of `TreeIndex::read`: the
recursive `Node::search` either asks for a restart from the root or
completes with an optional value (a null root completes with `none`). -/
inductive ReadStep (V : Type) where
  | retry
  | done (r : Option V)
deriving DecidableEq

/-- The retry loop of `TreeIndex::read` driven by the per-iteration
outcomes; `none` means the oracle ran out before the loop returned. -/
def readLoop {V : Type} : List (ReadStep V) → Option (Option V)
  | [] => none
  | .retry :: rest => readLoop rest
  | .done r :: _ => some r

/-- Outcome of one iteration of the loop of `TreeIndex::remove`: the root is
null, or the recursive `Node::remove` returns `Ok`, `Coalesce` or `Retry`,
each carrying whether this attempt observed a live entry being retired. -/
inductive RemoveStep where
  | rootNull
  | ok (removed : Bool)
  | coalesce (removed : Bool)
  | retry (removed : Bool)
deriving DecidableEq

/-- The loop of `TreeIndex::remove` driven by the per-iteration outcomes,
carrying the sticky `has_been_removed` flag; `none` means the oracle ran out
mid-loop. -/
def removeLoop (hbr : Bool) : List RemoveStep → Option Bool
  | [] => none
  | .rootNull :: _ => some hbr
  | .ok r :: _ => some (r || hbr)
  | .coalesce r :: _ => some (r || hbr)
  | .retry r :: rest => removeLoop (r || hbr) rest

/-! ### Ordering of the entries yielded by a scan -/

/-- Invariant of an advancing cursor: the remainder of the current leaf is
sorted and strictly above the current key, and every sibling leaf ahead is
internally sorted (the per-leaf invariant of the ordered leaf). -/
def ScanInv (s : LeafScanner K V) : Prop :=
  s.rest.Pairwise keyLt ∧
  (∀ c, s.current = some c → ∀ e ∈ s.rest, c.1 < e.1) ∧
  (∀ l ∈ s.tail, l.Pairwise keyLt)

theorem findEntry_spec {mak : Option K} {l : List (K × V)} {e : K × V}
    {rs : List (K × V)} (hl : l.Pairwise keyLt)
    (h : findEntry mak l = some (e, rs)) :
    allowed mak e.1 = true ∧ rs.Pairwise keyLt ∧ ∀ x ∈ rs, e.1 < x.1 := by
  induction l with
  | nil => simp [findEntry] at h
  | cons x xs ih =>
    rw [findEntry] at h
    by_cases hx : allowed mak x.1 = true
    · rw [if_pos hx] at h
      cases h
      exact ⟨hx, (List.pairwise_cons.mp hl).2, (List.pairwise_cons.mp hl).1⟩
    · rw [if_neg hx] at h
      exact ih (List.pairwise_cons.mp hl).2 h

theorem jumpLoop_spec {mak : Option K} {ls : List (Leaf K V)} {e : K × V}
    {s' : LeafScanner K V} (hs : ∀ l ∈ ls, l.Pairwise keyLt)
    (h : jumpLoop mak ls = some (e, s')) :
    allowed mak e.1 = true ∧ s'.current = some e ∧ ScanInv s' := by
  induction ls with
  | nil => simp [jumpLoop] at h
  | cons l t ih =>
    rw [jumpLoop] at h
    cases hfe : findEntry mak l with
    | some p =>
      obtain ⟨e', rs⟩ := p
      rw [hfe] at h
      cases h
      obtain ⟨ha, hp, hgt⟩ := findEntry_spec (hs l (by simp)) hfe
      refine ⟨ha, rfl, hp, ?_, fun l' hl' => hs l' (by simp [hl'])⟩
      intro c hc
      cases hc
      exact hgt
    | none =>
      rw [hfe] at h
      exact ih (fun l' hl' => hs l' (by simp [hl'])) h

theorem lsNext_spec {s : LeafScanner K V} {e : K × V} {s' : LeafScanner K V}
    (hs : ScanInv s) (h : lsNext s = some (e, s')) :
    (∀ c, s.current = some c → c.1 < e.1) ∧ s'.current = some e ∧ ScanInv s' := by
  obtain ⟨c0, rest, tail⟩ := s
  obtain ⟨hp, hgt, ht⟩ := hs
  cases rest with
  | cons x rs =>
    simp only [lsNext] at h
    cases h
    refine ⟨fun c hc => hgt c hc e (by simp), rfl, (List.pairwise_cons.mp hp).2, ?_, ht⟩
    intro c hc
    cases hc
    exact (List.pairwise_cons.mp hp).1
  | nil =>
    simp only [lsNext] at h
    obtain ⟨ha, hc, hinv⟩ := jumpLoop_spec ht h
    refine ⟨?_, hc, hinv⟩
    intro c hcc
    cases hcc
    simpa [allowed] using ha

theorem scanFuel_pairwise {fuel : Nat} {s : LeafScanner K V} (hs : ScanInv s) :
    (scanFuel fuel s).Pairwise keyLt ∧
      (∀ c, s.current = some c → ∀ x ∈ scanFuel fuel s, c.1 < x.1) := by
  induction fuel generalizing s with
  | zero => simp [scanFuel]
  | succ n ih =>
    cases hx : lsNext s with
    | none => simp [scanFuel, hx]
    | some p =>
      obtain ⟨e, s'⟩ := p
      obtain ⟨hlt, hcur, hinv⟩ := lsNext_spec hs hx
      obtain ⟨ihp, ihgt⟩ := ih hinv
      have hall : ∀ x ∈ scanFuel n s', e.1 < x.1 := ihgt e hcur
      constructor
      · simp only [scanFuel, hx]
        exact List.pairwise_cons.mpr ⟨hall, ihp⟩
      · intro c hc x hxmem
        simp only [scanFuel, hx, List.mem_cons] at hxmem
        rcases hxmem with rfl | hxm
        · exact hlt c hc
        · exact lt_trans (hlt c hc) (hall x hxm)

/-- `scanFrom` of a cursor satisfying the invariant yields strictly
increasing keys. -/
theorem scanFrom_pairwise {s : LeafScanner K V} (hs : ScanInv s) :
    (scanFrom s).Pairwise keyLt :=
  (scanFuel_pairwise hs).1

theorem nodeMin_scanInv {leaves : List (Leaf K V)}
    (h : ∀ l ∈ leaves, l.Pairwise keyLt) : ScanInv (nodeMin leaves) := by
  cases leaves with
  | nil => exact ⟨by simp [nodeMin], by simp [nodeMin], by simp [nodeMin]⟩
  | cons l ls =>
    refine ⟨h l (by simp), by simp [nodeMin], fun l' hl' => h l' (by simp [nodeMin] at hl'; simp [hl'])⟩

/-- `maxLess` always positions at the start of a suffix of the leaf chain. -/
theorem maxLess_eq_nodeMin_drop (k : K) (leaves : List (Leaf K V)) :
    ∃ i, maxLess k leaves = nodeMin (leaves.drop i) := by
  induction leaves with
  | nil => exact ⟨0, rfl⟩
  | cons l rest ih =>
    cases rest with
    | nil => exact ⟨0, rfl⟩
    | cons l2 ls =>
      rw [maxLess]
      cases h2 : l2.head? with
      | some e2 =>
        by_cases hk : e2.1 ≤ k
        · obtain ⟨i, hi⟩ := ih
          exact ⟨i + 1, by simpa [hk] using hi⟩
        · exact ⟨0, by simp [hk, nodeMin]⟩
      | none => exact ⟨0, by simp [nodeMin]⟩

/-! ### Scanning a globally sorted leaf chain yields every entry -/

theorem jumpLoop_allowed_none {mak : Option K} {ls : List (Leaf K V)}
    (hall : ∀ e ∈ ls.flatten, allowed mak e.1 = true)
    (h : jumpLoop mak ls = none) : ls.flatten = [] := by
  induction ls with
  | nil => simp
  | cons l t ih =>
    rw [jumpLoop] at h
    cases hfe : findEntry mak l with
    | some p => rw [hfe] at h; cases h
    | none =>
      rw [hfe] at h
      cases l with
      | nil =>
        simp only [List.flatten_cons, List.nil_append]
        exact ih (fun e he => hall e (by simp [he])) h
      | cons x xs =>
        exfalso
        have hx : allowed mak x.1 = true := hall x (by simp)
        rw [findEntry, if_pos hx] at hfe
        cases hfe

theorem jumpLoop_allowed_some {mak : Option K} {ls : List (Leaf K V)} {e : K × V}
    {s' : LeafScanner K V} (hall : ∀ x ∈ ls.flatten, allowed mak x.1 = true)
    (h : jumpLoop mak ls = some (e, s')) :
    s'.current = some e ∧ ls.flatten = e :: (s'.rest ++ s'.tail.flatten) := by
  induction ls with
  | nil => simp [jumpLoop] at h
  | cons l t ih =>
    rw [jumpLoop] at h
    cases hfe : findEntry mak l with
    | some p =>
      obtain ⟨e', rs⟩ := p
      rw [hfe] at h
      cases h
      cases l with
      | nil => simp [findEntry] at hfe
      | cons x xs =>
        have hx : allowed mak x.1 = true := hall x (by simp)
        rw [findEntry, if_pos hx] at hfe
        cases hfe
        simp
    | none =>
      rw [hfe] at h
      cases l with
      | nil =>
        have := ih (fun x hx => hall x (by simp [hx])) h
        simpa using this
      | cons x xs =>
        exfalso
        have hx : allowed mak x.1 = true := hall x (by simp)
        rw [findEntry, if_pos hx] at hfe
        cases hfe

theorem jumpLoop_current {mak : Option K} {ls : List (Leaf K V)} {e : K × V}
    {s' : LeafScanner K V} (h : jumpLoop mak ls = some (e, s')) :
    s'.current = some e := by
  induction ls with
  | nil => simp [jumpLoop] at h
  | cons l t ih =>
    rw [jumpLoop] at h
    cases hfe : findEntry mak l with
    | some p =>
      obtain ⟨e', rs⟩ := p
      rw [hfe] at h
      cases h
      rfl
    | none =>
      rw [hfe] at h
      exact ih h

theorem lsNext_current {s : LeafScanner K V} {e : K × V} {s' : LeafScanner K V}
    (h : lsNext s = some (e, s')) : s'.current = some e := by
  obtain ⟨c, rest, tail⟩ := s
  cases rest with
  | cons x rs =>
    simp only [lsNext] at h
    cases h
    rfl
  | nil =>
    simp only [lsNext] at h
    exact jumpLoop_current h

/-- When every reachable entry passes the skip test, one advance either
proves the remainder empty or peels off exactly its head. -/
theorem lsNext_sorted_decomp {s : LeafScanner K V}
    (hallowed : ∀ x ∈ s.rest ++ s.tail.flatten,
      allowed (s.current.map Prod.fst) x.1 = true) :
    (lsNext s = none → s.rest ++ s.tail.flatten = []) ∧
    (∀ e s', lsNext s = some (e, s') →
      s'.current = some e ∧
        s.rest ++ s.tail.flatten = e :: (s'.rest ++ s'.tail.flatten)) := by
  obtain ⟨c, rest, tail⟩ := s
  cases rest with
  | cons y ys =>
    constructor
    · intro h
      simp [lsNext] at h
    · intro e s' h
      simp only [lsNext] at h
      cases h
      exact ⟨rfl, rfl⟩
  | nil =>
    constructor
    · intro h
      simp only [lsNext] at h
      have := jumpLoop_allowed_none (fun x hxm => hallowed x (by simpa using hxm)) h
      simpa using this
    · intro e s' h
      simp only [lsNext] at h
      have := jumpLoop_allowed_some (fun x hxm => hallowed x (by simpa using hxm)) h
      simpa using this

theorem scanFuel_sorted {fuel : Nat} {s : LeafScanner K V} (hw : s.weight ≤ fuel)
    (hp : (s.rest ++ s.tail.flatten).Pairwise keyLt)
    (hc : ∀ c, s.current = some c → ∀ e ∈ s.rest ++ s.tail.flatten, c.1 < e.1) :
    scanFuel fuel s = s.rest ++ s.tail.flatten := by
  induction fuel generalizing s with
  | zero =>
    obtain ⟨c, rest, tail⟩ := s
    have hwz : rest.length + (tail.map List.length).sum = 0 := by
      simpa [LeafScanner.weight] using Nat.le_zero.mp hw
    have hr : rest = [] := List.length_eq_zero.mp (by omega)
    have hf : tail.flatten = [] := by
      have hlen : tail.flatten.length = 0 := by
        rw [List.length_flatten]
        omega
      exact List.length_eq_zero.mp hlen
    simp [scanFuel, hr, hf]
  | succ n ih =>
    have hallowed : ∀ x ∈ s.rest ++ s.tail.flatten,
        allowed (s.current.map Prod.fst) x.1 = true := by
      intro x hx
      cases hcur : s.current with
      | none => simp [allowed]
      | some c =>
        simp only [Option.map_some', allowed, decide_eq_true_eq]
        exact hc c hcur x hx
    cases hx : lsNext s with
    | none =>
      have hnil := (lsNext_sorted_decomp hallowed).1 hx
      simp [scanFuel, hx, hnil]
    | some p =>
      obtain ⟨e, s'⟩ := p
      obtain ⟨hcur, heq⟩ := (lsNext_sorted_decomp hallowed).2 e s' hx
      have hw' : s'.weight ≤ n := by
        have := lsNext_weight hx
        omega
      have hp' : (s'.rest ++ s'.tail.flatten).Pairwise keyLt := by
        rw [heq] at hp
        exact (List.pairwise_cons.mp hp).2
      have hc' : ∀ c, s'.current = some c →
          ∀ x ∈ s'.rest ++ s'.tail.flatten, c.1 < x.1 := by
        intro c hcc x hxm
        rw [hcur] at hcc
        cases hcc
        rw [heq] at hp
        exact (List.pairwise_cons.mp hp).1 x hxm
      simp only [scanFuel, hx]
      rw [ih hw' hp' hc', heq]

/-- A cursor satisfying the global sorting hypotheses yields exactly the
entries still ahead of it: nothing is skipped, nothing duplicated. -/
theorem scanFrom_of_sorted {s : LeafScanner K V}
    (hp : (s.rest ++ s.tail.flatten).Pairwise keyLt)
    (hc : ∀ c, s.current = some c → ∀ e ∈ s.rest ++ s.tail.flatten, c.1 < e.1) :
    scanFrom s = s.rest ++ s.tail.flatten :=
  scanFuel_sorted le_rfl hp hc

omit [LinearOrder K] in
theorem nodeMin_parts (leaves : List (Leaf K V)) :
    (nodeMin leaves).current = none ∧
    (nodeMin leaves).rest ++ (nodeMin leaves).tail.flatten = leaves.flatten := by
  cases leaves <;> simp [nodeMin]

/-- Under the global ordering invariant, `max_less` positions at the start
of a suffix of the leaf chain, and every entry it skips over is strictly
below the search key. -/
theorem maxLess_drop_bound (k : K) (leaves : List (Leaf K V))
    (hp : leaves.flatten.Pairwise keyLt) :
    ∃ i, maxLess k leaves = nodeMin (leaves.drop i) ∧
      ∀ e ∈ (leaves.take i).flatten, e.1 < k := by
  induction leaves with
  | nil => exact ⟨0, rfl, by simp⟩
  | cons l rest ih =>
    cases rest with
    | nil => exact ⟨0, rfl, by simp⟩
    | cons l2 ls =>
      rw [maxLess]
      cases h2 : l2.head? with
      | some e2 =>
        by_cases hk : e2.1 ≤ k
        · have hsplit : (l :: l2 :: ls).flatten = l ++ (l2 :: ls).flatten := by simp
          rw [hsplit] at hp
          obtain ⟨hpl, hp', hcross⟩ := List.pairwise_append.mp hp
          obtain ⟨i, hi, hb⟩ := ih hp'
          refine ⟨i + 1, by simpa [hk] using hi, ?_⟩
          intro e he
          simp only [List.take_succ_cons, List.flatten_cons, List.mem_append] at he
          rcases he with hel | het
          · have he2 : e2 ∈ (l2 :: ls).flatten := by
              have : e2 ∈ l2 := List.mem_of_mem_head? (by simp [h2])
              simp [this]
            exact lt_of_lt_of_le (hcross e hel e2 he2) hk
          · exact hb e het
        · exact ⟨0, by simp [hk, nodeMin], by simp⟩
      | none => exact ⟨0, by simp [nodeMin], by simp⟩

/-- The trailing loop of `Scanner::from` skips exactly the yielded entries
whose key is below the bound and stops on the first yielded entry at or
above it. -/
theorem fromFuel_spec {k : K} {fuel : Nat} {s : LeafScanner K V}
    (hw : s.weight ≤ fuel) :
    (fromFuel k fuel s = none → ∀ e ∈ scanFrom s, e.1 < k) ∧
    (∀ s', fromFuel k fuel s = some s' →
      ∃ pre e suf, scanFrom s = pre ++ e :: suf ∧ (∀ x ∈ pre, x.1 < k) ∧
        k ≤ e.1 ∧ s'.current = some e) := by
  induction fuel generalizing s with
  | zero =>
    have h0 := lsNext_eq_none_of_weight_zero (Nat.le_zero.mp hw)
    constructor
    · intro _ e he
      rw [scanFrom_step, h0] at he
      simp at he
    · intro s' h
      simp [fromFuel] at h
  | succ n ih =>
    cases hx : lsNext s with
    | none =>
      constructor
      · intro _ e he
        rw [scanFrom_step, hx] at he
        simp at he
      · intro s' h
        simp only [fromFuel, hx] at h
        cases h
    | some p =>
      obtain ⟨e, s1⟩ := p
      have hw1 : s1.weight ≤ n := by
        have := lsNext_weight hx
        omega
      have hscan : scanFrom s = e :: scanFrom s1 := by rw [scanFrom_step, hx]
      by_cases hk : k ≤ e.1
      · constructor
        · intro h
          simp only [fromFuel, hx, if_pos hk] at h
          cases h
        · intro s' h
          simp only [fromFuel, hx, if_pos hk] at h
          cases h
          exact ⟨[], e, scanFrom s1, by simpa using hscan, by simp, hk,
            lsNext_current hx⟩
      · have hek : e.1 < k := not_le.mp hk
        constructor
        · intro h e' he'
          simp only [fromFuel, hx, if_neg hk] at h
          rw [hscan] at he'
          rcases List.mem_cons.mp he' with rfl | hm
          · exact hek
          · exact (ih hw1).1 h e' hm
        · intro s' h
          simp only [fromFuel, hx, if_neg hk] at h
          obtain ⟨pre, e', suf, hdec, hpre, hge, hcur⟩ := (ih hw1).2 s' h
          refine ⟨e :: pre, e', suf, by simp [hscan, hdec], ?_, hge, hcur⟩
          intro x hxm
          rcases List.mem_cons.mp hxm with rfl | hm
          · exact hek
          · exact hpre x hm

theorem fromLoop_spec {k : K} (s : LeafScanner K V) :
    (fromLoop k s = none → ∀ e ∈ scanFrom s, e.1 < k) ∧
    (∀ s', fromLoop k s = some s' →
      ∃ pre e suf, scanFrom s = pre ++ e :: suf ∧ (∀ x ∈ pre, x.1 < k) ∧
        k ≤ e.1 ∧ s'.current = some e) :=
  fromFuel_spec le_rfl

/-- The trailing loop of `Scanner::from` preserves the cursor invariant. -/
theorem fromFuel_scanInv {k : K} {fuel : Nat} {s s' : LeafScanner K V}
    (hs : ScanInv s) (h : fromFuel k fuel s = some s') : ScanInv s' := by
  induction fuel generalizing s with
  | zero => simp [fromFuel] at h
  | succ n ih =>
    cases hx : lsNext s with
    | none => simp [fromFuel, hx] at h
    | some p =>
      obtain ⟨e, s1⟩ := p
      have hinv := (lsNext_spec hs hx).2.2
      by_cases hk : k ≤ e.1
      · simp only [fromFuel, hx, if_pos hk] at h
        cases h
        exact hinv
      · simp only [fromFuel, hx, if_neg hk] at h
        exact ih hinv h

/-! ### Functional facts about insert and remove -/

theorem mem_leafInsert {k : K} {v : V} {l : Leaf K V} {x : K × V} :
    x ∈ leafInsert k v l ↔ x = (k, v) ∨ x ∈ l := by
  induction l with
  | nil => simp [leafInsert]
  | cons e rs ih =>
    rw [leafInsert]
    by_cases h : k < e.1
    · simp [h]
    · simp only [if_neg h, List.mem_cons, ih]
      tauto

omit [LinearOrder K] in
theorem flatten_splitIfFull (F : Nat) (l : Leaf K V) :
    (splitIfFull F l).flatten = l := by
  unfold splitIfFull
  split
  · simp
  · simp [List.take_append_drop]

theorem mem_flatten_insertRouted {F : Nat} {k : K} {v : V}
    {leaves : List (Leaf K V)} {x : K × V} :
    x ∈ (insertRouted F k v leaves).flatten ↔ x = (k, v) ∨ x ∈ leaves.flatten := by
  induction leaves with
  | nil => simp [insertRouted]
  | cons l rest ih =>
    cases rest with
    | nil => simp [insertRouted, flatten_splitIfFull, mem_leafInsert]
    | cons l2 ls =>
      rw [insertRouted]
      cases h2 : l2.head? with
      | some e2 =>
        by_cases hk : e2.1 ≤ k
        · simp only [if_pos hk, List.flatten_cons, List.mem_append, ih]
          tauto
        · simp only [if_neg hk, List.flatten_append, List.flatten_cons,
            flatten_splitIfFull, List.mem_append, mem_leafInsert]
          tauto
      | none =>
        simp only [List.flatten_append, List.flatten_cons, flatten_splitIfFull,
          List.mem_append, mem_leafInsert]
        tauto

theorem leafRemove_found (k : K) (l : Leaf K V) :
    (leafRemove k l).1 = l.any (fun e => decide (e.1 = k)) := by
  induction l with
  | nil => simp [leafRemove]
  | cons e rs ih =>
    rw [leafRemove]
    by_cases h : e.1 = k
    · simp [h]
    · simp [h, ih]

theorem leafRemove_countP (k : K) (l : Leaf K V) :
    l.countP (fun e => decide (e.1 = k)) =
      (leafRemove k l).2.countP (fun e => decide (e.1 = k)) +
        (if (leafRemove k l).1 then 1 else 0) := by
  induction l with
  | nil => simp [leafRemove]
  | cons e rs ih =>
    rw [leafRemove]
    by_cases h : e.1 = k
    · simp [List.countP_cons, h]
    · simp only [if_neg h]
      rw [List.countP_cons, List.countP_cons]
      simp only [decide_eq_false h]
      omega

theorem nodeRemove_found (k : K) (ls : List (Leaf K V)) :
    (nodeRemove k ls).1 = ls.flatten.any (fun e => decide (e.1 = k)) := by
  induction ls with
  | nil => simp [nodeRemove]
  | cons l t ih =>
    rw [nodeRemove]
    by_cases h : (leafRemove k l).1 = true
    · have := leafRemove_found k l
      rw [h] at this
      simp [h, List.any_append, ← this]
    · have hfound := leafRemove_found k l
      rw [eq_false_of_ne_true h] at hfound
      simp [h, List.any_append, ← hfound, ih]

theorem nodeRemove_countP (k : K) (ls : List (Leaf K V)) :
    ls.flatten.countP (fun e => decide (e.1 = k)) =
      (nodeRemove k ls).2.flatten.countP (fun e => decide (e.1 = k)) +
        (if (nodeRemove k ls).1 then 1 else 0) := by
  induction ls with
  | nil => simp [nodeRemove]
  | cons l t ih =>
    have hcnt := leafRemove_countP k l
    cases hb : (leafRemove k l).1 with
    | true =>
      rw [hb, if_pos rfl] at hcnt
      by_cases hemp : (leafRemove k l).2.isEmpty
      · have hnil : (leafRemove k l).2 = [] := List.isEmpty_iff.mp hemp
        rw [hnil] at hcnt
        simp only [List.countP_nil] at hcnt
        simp [nodeRemove, hb, hemp, List.countP_append]
        omega
      · simp [nodeRemove, hb, hemp, List.countP_append]
        omega
    | false =>
      rw [hb] at hcnt
      simp at hcnt
      simp [nodeRemove, hb, List.countP_append] at ih ⊢
      omega

theorem remove_fst (t : TreeIndex K V) (k : K) :
    (t.remove k).1 = t.entries.any (fun e => decide (e.1 = k)) := by
  cases ht : t.root with
  | none => simp [TreeIndex.remove, TreeIndex.entries, ht]
  | some leaves => simp [TreeIndex.remove, TreeIndex.entries, ht, nodeRemove_found]

theorem remove_entries (t : TreeIndex K V) (k : K) :
    ((t.remove k).2).entries =
      (match t.root with
        | none => []
        | some leaves => (nodeRemove k leaves).2.flatten) := by
  cases ht : t.root with
  | none => simp [TreeIndex.remove, TreeIndex.entries, ht]
  | some leaves =>
    by_cases hemp : (nodeRemove k leaves).2.isEmpty
    · have hnil : (nodeRemove k leaves).2 = [] := List.isEmpty_iff.mp hemp
      simp [TreeIndex.remove, TreeIndex.entries, ht, hemp, hnil]
    · simp [TreeIndex.remove, TreeIndex.entries, ht, hemp]

theorem remove_countP (t : TreeIndex K V) (k : K) :
    t.entries.countP (fun e => decide (e.1 = k)) =
      ((t.remove k).2).entries.countP (fun e => decide (e.1 = k)) +
        (if (t.remove k).1 then 1 else 0) := by
  cases ht : t.root with
  | none => simp [TreeIndex.remove, TreeIndex.entries, ht]
  | some leaves =>
    rw [remove_entries, ht]
    have := nodeRemove_countP k leaves
    simp only [TreeIndex.entries, ht, Option.getD_some, TreeIndex.remove]
    exact this

/-! ### Claim theorems for the tree operations -/

/-- **C1**: after `insert(k, v)` returned `Ok`, a second `insert(k, v')`
returns `Err((k, v'))` carrying back exactly the rejected pair and leaves
the tree unchanged, and `read(&k, f)` still observes the first value `v`.
By their result types, `remove`, `read`, `clear` and `len` always return a
success value, so `insert` is the only operation that reports a failure. -/
theorem insert_duplicate_err_read_first {U : Type} (F : Nat)
    (t t1 : TreeIndex K V) (k : K) (v v' : V) (f : K → V → U)
    (h : t.insert F k v = (.ok (), t1)) :
    t1.insert F k v' = (.error (k, v'), t1) ∧ t1.read k f = some (f k v) := by
  cases hni : nodeInsert F k v (t.root.getD []) with
  | error e =>
    rw [TreeIndex.insert, hni] at h
    simp at h
  | ok ls =>
    rw [TreeIndex.insert, hni] at h
    injection h with h1 h2
    subst h2
    by_cases hdup : (t.root.getD []).flatten.any (fun e => decide (e.1 = k)) = true
    · rw [nodeInsert, if_pos hdup] at hni
      cases hni
    · rw [nodeInsert, if_neg hdup] at hni
      injection hni with hls
      have hnotin : ∀ e ∈ (t.root.getD []).flatten, ¬(e.1 = k) := by
        intro e he
        have := List.any_eq_false.mp (eq_false_of_ne_true hdup) e he
        simpa using this
      have hmemnew : ∀ x : K × V,
          x ∈ ls.flatten ↔ x = (k, v) ∨ x ∈ (t.root.getD []).flatten := by
        intro x
        rw [← hls]
        exact mem_flatten_insertRouted
      have hkv : (k, v) ∈ ls.flatten := (hmemnew (k, v)).mpr (Or.inl rfl)
      have hany : ls.flatten.any (fun e => decide (e.1 = k)) = true :=
        List.any_eq_true.mpr ⟨(k, v), hkv, by simp⟩
      constructor
      · simp [TreeIndex.insert, nodeInsert, hany]
      · cases hf : ls.flatten.find? (fun e => decide (e.1 = k)) with
        | none =>
          exfalso
          have := List.find?_eq_none.mp hf (k, v) hkv
          simp at this
        | some a =>
          have hak : a.1 = k := by simpa using List.find?_some hf
          have hma : a ∈ ls.flatten := List.mem_of_find?_eq_some hf
          have hakv : a = (k, v) := by
            rcases (hmemnew a).mp hma with rfl | hold
            · rfl
            · exact absurd hak (hnotin a hold)
          simp [TreeIndex.read, nodeSearch, hf, hakv]

theorem insert_duplicate_err_read_first_witness :
    (TreeIndex.mk (some [[(1, 10)]]) : TreeIndex Nat Nat).insert 8 1 11 =
        (.error (1, 11), ⟨some [[(1, 10)]]⟩) ∧
      (TreeIndex.mk (some [[(1, 10)]]) : TreeIndex Nat Nat).read 1
          (fun _ v => v) = some 10 :=
  insert_duplicate_err_read_first 8 TreeIndex.new ⟨some [[(1, 10)]]⟩ 1 10 11
    (fun _ v => v) rfl

/-- **C2**: `read` returns `None` when the root is null or when no live
entry with the key exists, and `Some (f k v)` when the live entry `(k, v)`
exists (keys are unique along a search path); a `Retry` outcome of the
recursive search makes the loop restart from the root instead of
returning. -/
theorem read_spec {U : Type} (t : TreeIndex K V) (k : K) (f : K → V → U) :
    (t.root = none → t.read k f = none) ∧
    ((∀ e ∈ t.entries, e.1 ≠ k) → t.read k f = none) ∧
    (∀ v, (k, v) ∈ t.entries → (∀ e ∈ t.entries, e.1 = k → e = (k, v)) →
      t.read k f = some (f k v)) ∧
    (∀ steps : List (ReadStep V), readLoop (ReadStep.retry :: steps) = readLoop steps) := by
  refine ⟨fun h => by simp [TreeIndex.read, h], ?_, ?_, fun steps => rfl⟩
  · intro hne
    cases ht : t.root with
    | none => simp [TreeIndex.read, ht]
    | some leaves =>
      have hf : leaves.flatten.find? (fun e => decide (e.1 = k)) = none := by
        rw [List.find?_eq_none]
        intro x hx
        have : x.1 ≠ k := by
          apply hne
          simpa [TreeIndex.entries, ht] using hx
        simp [this]
      simp [TreeIndex.read, nodeSearch, ht, hf]
  · intro v hv huniq
    cases ht : t.root with
    | none => simp [TreeIndex.entries, ht] at hv
    | some leaves =>
      have hv' : (k, v) ∈ leaves.flatten := by simpa [TreeIndex.entries, ht] using hv
      cases hf : leaves.flatten.find? (fun e => decide (e.1 = k)) with
      | none =>
        exfalso
        have := List.find?_eq_none.mp hf (k, v) hv'
        simp at this
      | some a =>
        have hak : a.1 = k := by simpa using List.find?_some hf
        have hma : a ∈ t.entries := by
          simpa [TreeIndex.entries, ht] using List.mem_of_find?_eq_some hf
        have hakv : a = (k, v) := huniq a hma hak
        simp [TreeIndex.read, nodeSearch, ht, hf, hakv]

theorem read_spec_witness :
    (TreeIndex.mk (some [[(1, 10)]]) : TreeIndex Nat Nat).read 1
      (fun _ v => v) = some 10 :=
  (read_spec (TreeIndex.mk (some [[(1, 10)]])) 1 (fun _ v => v)).2.2.1 10
    (by decide) (by decide)

theorem removeLoop_true_out (outs : List RemoveStep) {b : Bool}
    (h : removeLoop true outs = some b) : b = true := by
  induction outs with
  | nil => simp [removeLoop] at h
  | cons o rest ih =>
    cases o with
    | rootNull =>
      rw [removeLoop] at h
      cases h
      rfl
    | ok r =>
      rw [removeLoop] at h
      cases h
      simp
    | coalesce r =>
      rw [removeLoop] at h
      cases h
      simp
    | retry r =>
      rw [removeLoop, Bool.or_true] at h
      exact ih h

theorem removeLoop_retry_true (pre post : List RemoveStep) (hbr : Bool) {b : Bool}
    (hpre : ∀ o ∈ pre, ∃ fl, o = RemoveStep.retry fl)
    (h : removeLoop hbr (pre ++ RemoveStep.retry true :: post) = some b) :
    b = true := by
  induction pre generalizing hbr with
  | nil =>
    rw [List.nil_append, removeLoop, Bool.true_or] at h
    exact removeLoop_true_out post h
  | cons o rest ih =>
    obtain ⟨fl, rfl⟩ := hpre o (by simp)
    rw [List.cons_append, removeLoop] at h
    exact ih (fl || hbr) (fun o' ho' => hpre o' (by simp [ho'])) h

/-- **C3**: `remove` is sticky across retries: once `has_been_removed` is
set, every way the loop can return yields `true`; in particular, if the
attempts before a `Retry(true)` outcome were all retries, the final result
is `true` no matter what the later attempts (including a null root)
observe. -/
theorem remove_sticky :
    (∀ (outs : List RemoveStep) (b : Bool), removeLoop true outs = some b →
      b = true) ∧
    (∀ (pre post : List RemoveStep) (b : Bool),
      (∀ o ∈ pre, ∃ fl, o = RemoveStep.retry fl) →
      removeLoop false (pre ++ RemoveStep.retry true :: post) = some b →
      b = true) :=
  ⟨fun outs _ h => removeLoop_true_out outs h,
    fun pre post _ hpre h => removeLoop_retry_true pre post false hpre h⟩

theorem remove_sticky_witness :
    removeLoop false
      [RemoveStep.retry false, RemoveStep.retry true, RemoveStep.rootNull] =
      some true := by
  have hb : removeLoop false
      ([RemoveStep.retry false] ++ RemoveStep.retry true :: [RemoveStep.rootNull]) =
      some true := rfl
  have hres := remove_sticky.2 [RemoveStep.retry false] [RemoveStep.rootNull]
    true (by simp) hb
  simpa using hb

/-- **C6**: after `clear()`, `len()` returns `0` and a fresh scanner's first
`next()` returns `None`; `len` is by construction the count of the entries
yielded by a full scan, whose head is what a fresh scanner's first `next()`
yields. -/
theorem clear_len_scan (t : TreeIndex K V) :
    (t.clear).len = 0 ∧
    ((Scanner.new t.clear).next).1 = none ∧
    (∀ t' : TreeIndex K V, t'.len = t'.scanList.length) ∧
    (∀ t' : TreeIndex K V, ((Scanner.new t').next).1 = t'.scanList.head?) := by
  refine ⟨rfl, rfl, fun t' => rfl, fun t' => ?_⟩
  cases ht : t'.root with
  | none => simp [Scanner.new, Scanner.next, TreeIndex.scanList, ht]
  | some leaves =>
    simp only [Scanner.new, Scanner.next, ht, TreeIndex.scanList]
    rw [scanFrom_step]
    cases hx : lsNext (nodeMin leaves) with
    | none => simp
    | some p =>
      obtain ⟨e, ls⟩ := p
      simp

/-- **C7**: with no interleaved operations, on a tree whose keys are unique
(as insert maintains), `remove(&k)` twice returns `true` then `false` when
`k` is present, and `false` then `false` when it is absent. -/
theorem remove_idempotent (t : TreeIndex K V) (k : K)
    (huniq : t.entries.countP (fun e => decide (e.1 = k)) ≤ 1) :
    ((∃ v, (k, v) ∈ t.entries) →
      (t.remove k).1 = true ∧ (((t.remove k).2).remove k).1 = false) ∧
    ((¬∃ v, (k, v) ∈ t.entries) →
      (t.remove k).1 = false ∧ (((t.remove k).2).remove k).1 = false) := by
  have hcnt := remove_countP t k
  have hfst := remove_fst t k
  have hfst2 := remove_fst ((t.remove k).2) k
  constructor
  · rintro ⟨v, hv⟩
    have hany : t.entries.any (fun e => decide (e.1 = k)) = true :=
      List.any_eq_true.mpr ⟨(k, v), hv, by simp⟩
    have h1 : (t.remove k).1 = true := by rw [hfst, hany]
    refine ⟨h1, ?_⟩
    rw [h1, if_pos rfl] at hcnt
    have hz : ((t.remove k).2).entries.countP (fun e => decide (e.1 = k)) = 0 := by
      omega
    have : ((t.remove k).2).entries.any (fun e => decide (e.1 = k)) = false := by
      rw [List.any_eq_false]
      intro x hx
      have := List.countP_eq_zero.mp hz x hx
      simpa using this
    rw [hfst2, this]
  · intro habs
    have hany : t.entries.any (fun e => decide (e.1 = k)) = false := by
      rw [List.any_eq_false]
      intro x hx hpx
      have hxk : x.1 = k := by simpa using hpx
      exact habs ⟨x.2, by
        have : (k, x.2) = x := by
          rw [← hxk]
        rw [this]
        exact hx⟩
    have h1 : (t.remove k).1 = false := by rw [hfst, hany]
    refine ⟨h1, ?_⟩
    rw [h1] at hcnt
    simp only [Bool.false_eq_true, if_false, Nat.add_zero] at hcnt
    have hz : t.entries.countP (fun e => decide (e.1 = k)) = 0 := by
      rw [List.countP_eq_zero]
      intro x hx
      have := List.any_eq_false.mp hany x hx
      simpa using this
    have hz2 : ((t.remove k).2).entries.countP (fun e => decide (e.1 = k)) = 0 := by
      omega
    have : ((t.remove k).2).entries.any (fun e => decide (e.1 = k)) = false := by
      rw [List.any_eq_false]
      intro x hx
      have := List.countP_eq_zero.mp hz2 x hx
      simpa using this
    rw [hfst2, this]

theorem remove_idempotent_witness :
    ((TreeIndex.mk (some [[(1, 10)]]) : TreeIndex Nat Nat).remove 1).1 = true ∧
      ((((TreeIndex.mk (some [[(1, 10)]]) : TreeIndex Nat Nat).remove 1).2).remove 1).1 =
        false :=
  (remove_idempotent (TreeIndex.mk (some [[(1, 10)]])) 1 (by decide)).1
    ⟨10, by decide⟩

/-- **C10**: a scanner created by `iter()` carries no leaf cursor, so
`get()` returns `None` until `next()` has been called at least once — even
on a non-empty tree; the first `next()` positions at the minimum leaf and
advances from there. -/
theorem new_scanner_get_none (t : TreeIndex K V) :
    (Scanner.new t).get = none ∧
    (Scanner.new t).leafScanner = none ∧
    (∀ leaves, t.root = some leaves →
      ((Scanner.new t).next).1 = (lsNext (nodeMin leaves)).map Prod.fst) := by
  refine ⟨rfl, rfl, fun leaves ht => ?_⟩
  simp only [Scanner.new, Scanner.next, ht]
  cases lsNext (nodeMin leaves) with
  | none => rfl
  | some p =>
    obtain ⟨e, ls⟩ := p
    rfl

theorem new_scanner_get_none_witness :
    (Scanner.new (⟨some [[(1, 10)]]⟩ : TreeIndex Nat Nat)).get = none ∧
      ((Scanner.new (⟨some [[(1, 10)]]⟩ : TreeIndex Nat Nat)).next).1 =
        some (1, 10) := by
  refine ⟨(new_scanner_get_none ⟨some [[(1, 10)]]⟩).1, ?_⟩
  have h := (new_scanner_get_none (⟨some [[(1, 10)]]⟩ : TreeIndex Nat Nat)).2.2
    [[(1, 10)]] rfl
  rw [h]
  rfl

/-- **C4**: the keys yielded by successive `next()` calls are strictly
increasing: within a leaf this follows from the leaf ordering, and after a
jump the scanner skips every entry whose key is not strictly greater than
the recorded last key — even across overlapping or duplicated leaves as
left behind by splits and merges.  Stated for any cursor satisfying the
per-leaf invariant, for the `iter()` scanner of any tree of sorted leaves,
and for the remaining yields of a `from` scanner. -/
theorem scanner_yields_strictly_increasing :
    (∀ s : LeafScanner K V, ScanInv s → (scanFrom s).Pairwise keyLt) ∧
    (∀ (t : TreeIndex K V) (leaves : List (Leaf K V)), t.root = some leaves →
      (∀ l ∈ leaves, l.Pairwise keyLt) → t.scanList.Pairwise keyLt) ∧
    (∀ (t : TreeIndex K V) (k : K) (leaves : List (Leaf K V)) (scn : Scanner K V),
      t.root = some leaves → (∀ l ∈ leaves, l.Pairwise keyLt) →
      t.fromKey k = some scn → ∀ ls, scn.leafScanner = some ls →
      (scanFrom ls).Pairwise keyLt) := by
  refine ⟨fun s hs => scanFrom_pairwise hs, ?_, ?_⟩
  · intro t leaves ht hleaf
    simp only [TreeIndex.scanList, ht]
    exact scanFrom_pairwise (nodeMin_scanInv hleaf)
  · intro t k leaves scn ht hleaf hmk ls hls
    simp only [TreeIndex.fromKey, ht] at hmk
    cases hfl : fromLoop k (maxLess k leaves) with
    | none => rw [hfl] at hmk; cases hmk
    | some s' =>
      rw [hfl] at hmk
      simp only [Option.map_some'] at hmk
      injection hmk with hscn
      subst hscn
      have hse : s' = ls := by simpa using hls
      subst hse
      obtain ⟨i, hdrop⟩ := maxLess_eq_nodeMin_drop k leaves
      have hinv0 : ScanInv (maxLess k leaves) := by
        rw [hdrop]
        exact nodeMin_scanInv (fun l hl => hleaf l (List.mem_of_mem_drop hl))
      exact scanFrom_pairwise (fromFuel_scanInv hinv0 hfl)

theorem scanner_yields_strictly_increasing_witness :
    (scanFrom (⟨none, [(1, 10), (3, 1)], [[(2, 5), (4, 2)]]⟩ :
      LeafScanner Nat Nat)).Pairwise keyLt := by
  apply (scanner_yields_strictly_increasing (K := Nat) (V := Nat)).1
  refine ⟨by decide, ?_, by decide⟩
  intro c hc
  simp at hc

/-- **C5**: `from(&k)` returns a scanner positioned (via `get()`) at the
live entry with the least key at or above `k` when one exists, and `None`
when no entry with key at or above `k` exists, in particular on an empty
tree. -/
theorem fromKey_least_ge (t : TreeIndex K V) (k : K)
    (hp : t.entries.Pairwise keyLt) :
    ((t.fromKey k).isSome ↔ ∃ e ∈ t.entries, k ≤ e.1) ∧
    (∀ scn, t.fromKey k = some scn →
      scn.get = (t.entries.filter (fun e => decide (k ≤ e.1))).head?) := by
  cases ht : t.root with
  | none =>
    constructor
    · simp [TreeIndex.fromKey, TreeIndex.entries, ht]
    · intro scn hscn
      rw [TreeIndex.fromKey, ht] at hscn
      cases hscn
  | some leaves =>
    have hent : t.entries = leaves.flatten := by simp [TreeIndex.entries, ht]
    rw [hent] at hp ⊢
    obtain ⟨i, hdrop, hbound⟩ := maxLess_drop_bound k leaves hp
    have hsplit : leaves.flatten =
        (leaves.take i).flatten ++ (leaves.drop i).flatten := by
      rw [← List.flatten_append, List.take_append_drop]
    have hp2 : ((leaves.drop i).flatten).Pairwise keyLt := by
      rw [hsplit] at hp
      exact (List.pairwise_append.mp hp).2.1
    have hscan : scanFrom (maxLess k leaves) = (leaves.drop i).flatten := by
      rw [hdrop]
      have hparts := nodeMin_parts (leaves.drop i)
      rw [scanFrom_of_sorted (by rw [hparts.2]; exact hp2)
        (fun c hc => by rw [hparts.1] at hc; cases hc), hparts.2]
    constructor
    · constructor
      · intro hsome
        simp only [TreeIndex.fromKey, ht] at hsome
        cases hfl : fromLoop k (maxLess k leaves) with
        | none => rw [hfl] at hsome; simp at hsome
        | some s' =>
          obtain ⟨pre, e, suf, hdec, hpre, hge, hcur⟩ :=
            (fromLoop_spec (maxLess k leaves)).2 s' hfl
          refine ⟨e, ?_, hge⟩
          rw [hsplit]
          have : e ∈ scanFrom (maxLess k leaves) := by
            rw [hdec]
            simp
          rw [hscan] at this
          exact List.mem_append_right _ this
      · rintro ⟨e, he, hke⟩
        simp only [TreeIndex.fromKey, ht]
        cases hfl : fromLoop k (maxLess k leaves) with
        | some s' => simp
        | none =>
          exfalso
          have hlt := (fromLoop_spec (maxLess k leaves)).1 hfl
          rw [hsplit] at he
          rcases List.mem_append.mp he with htk | hdk
          · exact absurd hke (not_le.mpr (hbound e htk))
          · have : e.1 < k := hlt e (by rw [hscan]; exact hdk)
            exact absurd hke (not_le.mpr this)
    · intro scn hscn
      simp only [TreeIndex.fromKey, ht] at hscn
      cases hfl : fromLoop k (maxLess k leaves) with
      | none => rw [hfl] at hscn; cases hscn
      | some s' =>
        rw [hfl] at hscn
        simp only [Option.map_some'] at hscn
        injection hscn with hscn'
        subst hscn'
        obtain ⟨pre, e, suf, hdec, hpre, hge, hcur⟩ :=
          (fromLoop_spec (maxLess k leaves)).2 s' hfl
        have hget : (Scanner.mk t (some s')).get = some e := by
          simp [Scanner.get, hcur]
        rw [hget]
        have hflat : leaves.flatten =
            (leaves.take i).flatten ++ (pre ++ e :: suf) := by
          rw [hsplit, ← hscan, hdec]
        rw [hflat, List.filter_append, List.filter_append]
        have h1 : (leaves.take i).flatten.filter (fun e => decide (k ≤ e.1)) = [] := by
          rw [List.filter_eq_nil_iff]
          intro a ha
          simpa using not_le.mpr (hbound a ha)
        have h2 : pre.filter (fun e => decide (k ≤ e.1)) = [] := by
          rw [List.filter_eq_nil_iff]
          intro a ha
          simpa using not_le.mpr (hpre a ha)
        rw [h1, h2]
        simp [List.filter_cons, hge]

theorem fromKey_least_ge_witness :
    (((TreeIndex.mk (some [[(1, 10), (2, 20)], [(5, 50)]]) :
        TreeIndex Nat Nat).fromKey 3).isSome ↔
      ∃ e ∈ (TreeIndex.mk (some [[(1, 10), (2, 20)], [(5, 50)]]) :
        TreeIndex Nat Nat).entries, 3 ≤ e.1) ∧
    (∀ scn, (TreeIndex.mk (some [[(1, 10), (2, 20)], [(5, 50)]]) :
        TreeIndex Nat Nat).fromKey 3 = some scn →
      scn.get = ((TreeIndex.mk (some [[(1, 10), (2, 20)], [(5, 50)]]) :
        TreeIndex Nat Nat).entries.filter (fun e => decide (3 ≤ e.1))).head?) :=
  fromKey_least_ge (TreeIndex.mk (some [[(1, 10), (2, 20)], [(5, 50)]])) 3
    (by decide)

/-! ### The `Arc` strong reference count (`src/ebr/arc.rs`) -/

/-- Modelled from the spec: the upgrade of a hazardous pointer performed by
`TryFrom<Ptr> for Arc` through `Ptr::get_arc` (source not in this
snapshot): the reference count is incremented iff it is currently nonzero
(CAS-based); at zero the upgrade fails and the pointer is handed back. -/
def tryFromUpgrade (cnt : Nat) : Option Nat :=
  if cnt = 0 then none else some (cnt + 1)

/-- Events acting on one reclamation-managed object's strong count:
`Arc::clone`, `Drop for Arc`, and `TryFrom<Ptr> for Arc`. -/
inductive RcEvent where
  | clone
  | drop
  | tryUpgrade
deriving DecidableEq

/-- Effect of one event on the strong count: clone increments, drop
decrements, and an upgrade increments iff the count is nonzero. -/
def rcStep (n : Nat) : RcEvent → Nat
  | .clone => n + 1
  | .drop => n - 1
  | .tryUpgrade =>
    match tryFromUpgrade n with
    | none => n
    | some m => m

/-- A trace is valid when clone and drop are only performed by the holder
of a live strong handle, i.e. while the count is positive (the
`debug_assert_ne` in `Arc::clone` and the `&self` receiver of
`Drop::drop`); an upgrade attempt needs only a hazardous pointer. -/
def rcValid : Nat → List RcEvent → Bool
  | _, [] => true
  | n, e :: evs =>
    (decide ((e = RcEvent.clone ∨ e = RcEvent.drop) → 0 < n)) &&
      rcValid (rcStep n e) evs

/-- The count after running a trace. -/
def rcRun (n : Nat) : List RcEvent → Nat
  | [] => n
  | e :: evs => rcRun (rcStep n e) evs

/-- Number of positive-to-zero transitions of the count along a trace. -/
def rcZeroCrossings : Nat → List RcEvent → Nat
  | _, [] => 0
  | n, e :: evs =>
    (if 0 < n ∧ rcStep n e = 0 then 1 else 0) + rcZeroCrossings (rcStep n e) evs

theorem rc_zero_stays {evs : List RcEvent} (h : rcValid 0 evs = true) :
    rcRun 0 evs = 0 ∧ rcZeroCrossings 0 evs = 0 := by
  induction evs with
  | nil => exact ⟨rfl, rfl⟩
  | cons e rest ih =>
    rw [rcValid, Bool.and_eq_true] at h
    obtain ⟨hhd, htl⟩ := h
    cases e with
    | clone =>
      exfalso
      have := of_decide_eq_true hhd
      exact absurd (this (Or.inl rfl)) (by omega)
    | drop =>
      exfalso
      have := of_decide_eq_true hhd
      exact absurd (this (Or.inr rfl)) (by omega)
    | tryUpgrade =>
      have hstep : rcStep 0 RcEvent.tryUpgrade = 0 := rfl
      rw [hstep] at htl
      obtain ⟨h1, h2⟩ := ih htl
      refine ⟨?_, ?_⟩
      · rw [rcRun, hstep]
        exact h1
      · rw [rcZeroCrossings, hstep]
        simp [h2]

theorem rc_crossings_le_one (n : Nat) (evs : List RcEvent)
    (h : rcValid n evs = true) : rcZeroCrossings n evs ≤ 1 := by
  induction evs generalizing n with
  | nil => simp [rcZeroCrossings]
  | cons e rest ih =>
    rw [rcValid, Bool.and_eq_true] at h
    obtain ⟨hhd, htl⟩ := h
    rw [rcZeroCrossings]
    by_cases hc : 0 < n ∧ rcStep n e = 0
    · obtain ⟨hcpos, hcz⟩ := hc
      rw [if_pos ⟨hcpos, hcz⟩, hcz]
      rw [hcz] at htl
      have := (rc_zero_stays htl).2
      omega
    · rw [if_neg hc]
      have := ih (rcStep n e) htl
      omega

theorem rc_exactly_once (n : Nat) (evs : List RcEvent)
    (h : rcValid n evs = true) (hpos : 0 < n) (hend : rcRun n evs = 0) :
    rcZeroCrossings n evs = 1 := by
  induction evs generalizing n with
  | nil =>
    rw [rcRun] at hend
    omega
  | cons e rest ih =>
    rw [rcValid, Bool.and_eq_true] at h
    obtain ⟨hhd, htl⟩ := h
    rw [rcZeroCrossings]
    rw [rcRun] at hend
    by_cases hz : rcStep n e = 0
    · rw [if_pos ⟨hpos, hz⟩]
      rw [hz] at htl
      have := (rc_zero_stays htl).2
      rw [hz]
      omega
    · rw [if_neg (fun hc => hz hc.2)]
      have := ih (rcStep n e) htl (Nat.pos_of_ne_zero hz) hend
      omega

/-- **C8**: the strong count of a reclamation-managed object goes from
positive to zero exactly once, and after it reaches zero no new strong
handle can be manufactured: `try_from` upgrades by incrementing the count
iff it is currently nonzero and fails otherwise, a zero count stays zero
along every valid trace, and a trace that starts positive and ends at zero
crosses zero exactly once. -/
theorem refcount_zero_once :
    (∀ n : Nat, (tryFromUpgrade n = none ↔ n = 0) ∧
      (n ≠ 0 → tryFromUpgrade n = some (n + 1))) ∧
    (∀ evs : List RcEvent, rcValid 0 evs = true → rcRun 0 evs = 0) ∧
    (∀ (n : Nat) (evs : List RcEvent), rcValid n evs = true →
      rcZeroCrossings n evs ≤ 1) ∧
    (∀ (n : Nat) (evs : List RcEvent), rcValid n evs = true → 0 < n →
      rcRun n evs = 0 → rcZeroCrossings n evs = 1) := by
  refine ⟨fun n => ⟨?_, ?_⟩, fun evs h => (rc_zero_stays h).1,
    rc_crossings_le_one, rc_exactly_once⟩
  · unfold tryFromUpgrade
    constructor
    · intro h
      by_cases hn : n = 0
      · exact hn
      · rw [if_neg hn] at h
        cases h
    · intro h
      rw [h]
      simp
  · intro h
    unfold tryFromUpgrade
    rw [if_neg h]

theorem refcount_zero_once_witness :
    rcValid 1 [RcEvent.clone, RcEvent.drop, RcEvent.drop, RcEvent.tryUpgrade] = true ∧
      rcZeroCrossings 1
        [RcEvent.clone, RcEvent.drop, RcEvent.drop, RcEvent.tryUpgrade] = 1 :=
  ⟨by decide,
    refcount_zero_once.2.2.2 1
      [RcEvent.clone, RcEvent.drop, RcEvent.drop, RcEvent.tryUpgrade]
      (by decide) (by decide) (by decide)⟩

/-! ### Epoch-based reclamation (spec section 4.1; reclaimer sources not in
this snapshot) -/

/-- Modelled from the spec: the state of the epoch reclaimer — the global
epoch, the epochs recorded by the active pins, the deferred
(object, defer-epoch) pairs, and the objects whose destructor has run. -/
structure EbrState where
  epoch : Nat
  pins : List Nat
  deferred : List (Nat × Nat)
  destroyed : List Nat
deriving DecidableEq

/-- Modelled from the spec: the transitions of the reclaimer.  `pin`
records the current epoch for the pinning thread; `unpin` releases one pin;
`advance` moves the global epoch only when every active pin has caught up
with it; `defer` enqueues a not-yet-seen object at the current epoch — an
object is submitted once, when its last strong handle is dropped, which is
exactly what `Drop for Arc` does via `Barrier::collect` instead of
destroying the object synchronously; `reclaim` runs the destructor of a
deferred object once the global epoch is at least two ahead of its defer
epoch. -/
inductive EbrStep : EbrState → EbrState → Prop
  | pin (s : EbrState) :
      EbrStep s ⟨s.epoch, s.epoch :: s.pins, s.deferred, s.destroyed⟩
  | unpin (s : EbrState) (p : Nat) (h : p ∈ s.pins) :
      EbrStep s ⟨s.epoch, s.pins.erase p, s.deferred, s.destroyed⟩
  | advance (s : EbrState) (h : ∀ p ∈ s.pins, p = s.epoch) :
      EbrStep s ⟨s.epoch + 1, s.pins, s.deferred, s.destroyed⟩
  | defer (s : EbrState) (x : Nat)
      (hfresh : x ∉ s.deferred.map Prod.fst ∧ x ∉ s.destroyed) :
      EbrStep s ⟨s.epoch, s.pins, (x, s.epoch) :: s.deferred, s.destroyed⟩
  | reclaim (s : EbrState) (x e : Nat) (hmem : (x, e) ∈ s.deferred)
      (hage : e + 2 ≤ s.epoch) :
      EbrStep s ⟨s.epoch, s.pins, s.deferred.erase (x, e), x :: s.destroyed⟩

/-- The initial reclaimer state: epoch zero, nothing pinned, nothing
deferred, nothing destroyed. -/
def ebrInit : EbrState := ⟨0, [], [], []⟩

/-- States reachable from the initial state. -/
inductive EbrReach : EbrState → Prop
  | init : EbrReach ebrInit
  | step {s s' : EbrState} : EbrReach s → EbrStep s s' → EbrReach s'

/-- Inductive invariant: every pin lags the global epoch by at most one
(so a pinned thread can always dereference what it read), every deferred
record is at most the global epoch, deferred objects are distinct and not
yet destroyed, and no destructor has run twice. -/
def EbrInv (s : EbrState) : Prop :=
  (∀ p ∈ s.pins, p ≤ s.epoch ∧ s.epoch ≤ p + 1) ∧
  (s.deferred.map Prod.fst).Nodup ∧
  s.destroyed.Nodup ∧
  (∀ x ∈ s.deferred.map Prod.fst, x ∉ s.destroyed)

theorem ebrInv_init : EbrInv ebrInit := by
  refine ⟨?_, ?_, ?_, ?_⟩ <;> simp [ebrInit]

theorem map_fst_erase_nodup {l : List (Nat × Nat)} {x e : Nat}
    (hnd : (l.map Prod.fst).Nodup) (hmem : (x, e) ∈ l) :
    ((l.erase (x, e)).map Prod.fst).Nodup ∧
      x ∉ (l.erase (x, e)).map Prod.fst := by
  induction l with
  | nil => simp at hmem
  | cons a t ih =>
    rw [List.map_cons, List.nodup_cons] at hnd
    by_cases ha : a = (x, e)
    · subst ha
      rw [List.erase_cons_head]
      refine ⟨hnd.2, ?_⟩
      simpa using hnd.1
    · have hmt : (x, e) ∈ t := by
        rcases List.mem_cons.mp hmem with heq | hmm2
        · exact absurd heq.symm ha
        · exact hmm2
      obtain ⟨ih1, ih2⟩ := ih hnd.2 hmt
      rw [List.erase_cons_tail (by simp [ha])]
      have hxft : x ∈ t.map Prod.fst := List.mem_map.mpr ⟨(x, e), hmt, rfl⟩
      have hax : a.1 ≠ x := fun hh => hnd.1 (hh ▸ hxft)
      refine ⟨?_, ?_⟩
      · rw [List.map_cons, List.nodup_cons]
        refine ⟨?_, ih1⟩
        intro hmem2
        obtain ⟨q, hq, hqa⟩ := List.mem_map.mp hmem2
        exact hnd.1 (List.mem_map.mpr ⟨q, List.mem_of_mem_erase hq, hqa⟩)
      · rw [List.map_cons, List.mem_cons]
        push_neg
        exact ⟨fun hh => hax hh.symm, ih2⟩

theorem mem_nodup_fst_unique {l : List (Nat × Nat)} {x e ey : Nat}
    (hnd : (l.map Prod.fst).Nodup) (h1 : (x, e) ∈ l) (h2 : (x, ey) ∈ l) :
    ey = e := by
  induction l with
  | nil => simp at h1
  | cons a t ih =>
    rw [List.map_cons, List.nodup_cons] at hnd
    rcases List.mem_cons.mp h1 with he1 | ht1 <;>
      rcases List.mem_cons.mp h2 with he2 | ht2
    · exact (Prod.mk.inj (he2.trans he1.symm)).2
    · exfalso
      have hx : x ∈ t.map Prod.fst := List.mem_map.mpr ⟨(x, ey), ht2, rfl⟩
      exact hnd.1 (by rw [← he1]; exact hx)
    · exfalso
      have hx : x ∈ t.map Prod.fst := List.mem_map.mpr ⟨(x, e), ht1, rfl⟩
      exact hnd.1 (by rw [← he2]; exact hx)
    · exact ih hnd.2 ht1 ht2

theorem ebrInv_step {s s' : EbrState} (hInv : EbrInv s) (hstep : EbrStep s s') :
    EbrInv s' := by
  obtain ⟨hpin, hndd, hndx, hdisj⟩ := hInv
  cases hstep with
  | pin =>
    refine ⟨?_, hndd, hndx, hdisj⟩
    intro p hp
    dsimp only at hp ⊢
    rcases List.mem_cons.mp hp with rfl | hp'
    · omega
    · have := hpin p hp'
      omega
  | unpin p h =>
    refine ⟨?_, hndd, hndx, hdisj⟩
    intro q hq
    dsimp only at hq ⊢
    exact hpin q (List.mem_of_mem_erase hq)
  | advance h =>
    refine ⟨?_, hndd, hndx, hdisj⟩
    intro p hp
    dsimp only at hp ⊢
    have := h p hp
    omega
  | defer x hfresh =>
    refine ⟨hpin, ?_, hndx, ?_⟩
    · dsimp only
      rw [List.map_cons, List.nodup_cons]
      exact ⟨hfresh.1, hndd⟩
    · intro y hy
      dsimp only at hy ⊢
      rw [List.map_cons, List.mem_cons] at hy
      rcases hy with rfl | hy'
      · exact hfresh.2
      · exact hdisj y hy'
  | reclaim x e hmem hage =>
    obtain ⟨hnd', hnx⟩ := map_fst_erase_nodup hndd hmem
    have hxmem : x ∈ s.deferred.map Prod.fst :=
      List.mem_map.mpr ⟨(x, e), hmem, rfl⟩
    refine ⟨hpin, hnd', ?_, ?_⟩
    · dsimp only
      exact List.nodup_cons.mpr ⟨hdisj x hxmem, hndx⟩
    · intro y hy
      dsimp only at hy ⊢
      rw [List.mem_cons]
      push_neg
      obtain ⟨q, hq, hqy⟩ := List.mem_map.mp hy
      have hql : q ∈ s.deferred := List.mem_of_mem_erase hq
      have hymem : y ∈ s.deferred.map Prod.fst := List.mem_map.mpr ⟨q, hql, hqy⟩
      constructor
      · intro hyx
        subst hyx
        exact hnx hy
      · exact hdisj y hymem

theorem ebrInv_reach {s : EbrState} (h : EbrReach s) : EbrInv s := by
  induction h with
  | init => exact ebrInv_init
  | step _ hstep ih => exact ebrInv_step ih hstep

/-- **C9**: while a pin taken at epoch `p` is active, no object deferred at
or after that epoch (i.e. by a `defer(p)` issued after the pin, since the
epoch only grows) can be destroyed by any step; a destructor runs at most
once (`destroyed` never holds duplicates in any reachable state); and when
the last strong handle is dropped the object is only submitted to the
reclaimer: in the state reached by the submission it is queued, not
destroyed, and no immediately following step can destroy it either. -/
theorem epoch_pin_protects :
    (∀ s s' : EbrState, EbrReach s → EbrStep s s' → ∀ p x e, p ∈ s.pins →
      (x, e) ∈ s.deferred → p ≤ e → x ∉ s.destroyed → x ∉ s'.destroyed) ∧
    (∀ s : EbrState, EbrReach s → s.destroyed.Nodup) ∧
    (∀ (s : EbrState) (x : Nat),
      x ∉ s.deferred.map Prod.fst → x ∉ s.destroyed →
      (x, s.epoch) ∈ ((⟨s.epoch, s.pins, (x, s.epoch) :: s.deferred,
          s.destroyed⟩ : EbrState)).deferred ∧
      x ∉ ((⟨s.epoch, s.pins, (x, s.epoch) :: s.deferred,
          s.destroyed⟩ : EbrState)).destroyed ∧
      ∀ s'' : EbrState,
        EbrStep ⟨s.epoch, s.pins, (x, s.epoch) :: s.deferred, s.destroyed⟩ s'' →
        x ∉ s''.destroyed) := by
  refine ⟨?_, fun s hs => (ebrInv_reach hs).2.2.1, ?_⟩
  · intro s s' hreach hstep p x e hp hd hpe hnx
    obtain ⟨hpininv, hndd, hndx, hdisj⟩ := ebrInv_reach hreach
    cases hstep with
    | pin => exact hnx
    | unpin q h => exact hnx
    | advance h => exact hnx
    | defer y hfresh => exact hnx
    | reclaim y ey hmem hage =>
      intro hmem'
      dsimp only at hmem'
      rcases List.mem_cons.mp hmem' with rfl | hx'
      · have hey : ey = e := mem_nodup_fst_unique hndd hd hmem
        subst hey
        have hple : s.epoch ≤ p + 1 := (hpininv p hp).2
        omega
      · exact hnx hx'
  · intro s x hxd hxdes
    refine ⟨by simp, hxdes, ?_⟩
    intro s'' hstep
    cases hstep with
    | pin => exact hxdes
    | unpin q h => exact hxdes
    | advance h => exact hxdes
    | defer y hfresh => exact hxdes
    | reclaim y ey hmem hage =>
      intro hmem'
      dsimp only at hmem' hmem hage
      rcases List.mem_cons.mp hmem' with rfl | hx'
      · rcases List.mem_cons.mp hmem with heq | hy'
        · injection heq with hfst hsnd
          omega
        · exact hxd (List.mem_map.mpr ⟨(x, ey), hy', rfl⟩)
      · exact hxdes hx'

theorem epoch_pin_protects_witness :
    (5 : Nat) ∉ (⟨1, [0], [(5, 0)], []⟩ : EbrState).destroyed := by
  have hreach : EbrReach ⟨0, [0], [(5, 0)], []⟩ :=
    EbrReach.step (EbrReach.step EbrReach.init (EbrStep.pin ebrInit))
      (EbrStep.defer ⟨0, [0], [], []⟩ 5 ⟨by simp, by simp⟩)
  have hstep : EbrStep ⟨0, [0], [(5, 0)], []⟩ ⟨1, [0], [(5, 0)], []⟩ :=
    EbrStep.advance ⟨0, [0], [(5, 0)], []⟩ (by simp)
  exact epoch_pin_protects.1 ⟨0, [0], [(5, 0)], []⟩ ⟨1, [0], [(5, 0)], []⟩
    hreach hstep 0 5 0 (by simp) (by simp) (by omega) (by simp)

end Scc
